import Mathlib

/-!
Verification of the skill-attribution and repo-snapshot core of the
`code-voyager` repository.  The Python sources under `src/voyager/` are
shallowly embedded below: SQLite tables become association lists, file
contents become lists of lines, and every pure computation is translated
function by function.  String manipulation is modelled at the level of
character lists (a Lean `String` is a list of `Char`s), mirroring Python's
code-point-based slicing and splitting.
-/

set_option maxHeartbeats 1000000
set_option maxRecDepth 40000

namespace Voyager

/-! ## String helpers modelling Python string operations -/

/-- Python slicing `s[:n]` (per code point, which matches `Char` granularity). -/
def pyTake (s : String) (n : Nat) : String := String.mk (s.toList.take n)

/-- Python whitespace as used by `str.strip()` with no arguments. -/
def isPySpace (c : Char) : Bool :=
  c == ' ' || c == '\t' || c == '\n' || c == '\r' || c == '\x0b' || c == '\x0c'

/-- Python `str.strip()`. -/
def pyStrip (s : String) : String :=
  String.mk (((s.toList.dropWhile isPySpace).reverse.dropWhile isPySpace).reverse)

/-- Python `str.rstrip()`. -/
def pyRstrip (s : String) : String :=
  String.mk ((s.toList.reverse.dropWhile isPySpace).reverse)

/-- Python `s.lstrip("./")`: drop leading characters that are `.` or `/`. -/
def lstripDotSlash (s : String) : String :=
  String.mk (s.toList.dropWhile (fun c => c == '.' || c == '/'))

/-- Python `s[1:]`. -/
def pyDrop (s : String) (n : Nat) : String := String.mk (s.toList.drop n)

/-- Python `s[:-1]`. -/
def pyDropLast (s : String) : String := String.mk s.toList.dropLast

/-- Python prefix test `s.startswith(pre)`. -/
def pyStartsWith (s pre : String) : Bool := pre.toList.isPrefixOf s.toList

/-- Python suffix test `s.endswith(suf)`. -/
def pyEndsWith (s suf : String) : Bool := suf.toList.isSuffixOf s.toList

/-- Whether `needle` occurs as a contiguous sub-list of `hay`. -/
def listInfixOf (needle : List Char) : List Char → Bool
  | [] => needle.isEmpty
  | c :: cs => needle.isPrefixOf (c :: cs) || listInfixOf needle cs

/-- Python substring test `needle in hay`. -/
def containsSub (needle hay : String) : Bool := listInfixOf needle.toList hay.toList

/-- Split a character list at every occurrence of `c` (like `str.split(c)`;
always returns at least one (possibly empty) chunk). -/
def splitCharList (c : Char) : List Char → List (List Char)
  | [] => [[]]
  | x :: xs =>
    let r := splitCharList c xs
    if x == c then [] :: r
    else
      match r with
      | h :: t => (x :: h) :: t
      | [] => [[x]]

/-- Python `s.split(c)` for a single-character separator. -/
def pySplit (c : Char) (s : String) : List String :=
  (splitCharList c s.toList).map String.mk

/-! ## Model of `pathlib` pieces used by the detector

`pathlib.PurePosixPath(p).parts` for the POSIX paths handled here: a leading
`/` contributes a root part `"/"`, empty and `"."` segments are dropped.
(The double-slash special case of POSIX roots is not modelled; no caller
produces such paths.) -/

def pathParts (p : String) : List String :=
  let segs := (pySplit '/' p).filter (fun s => s != "" && s != ".")
  if pyStartsWith p "/" then "/" :: segs else segs

/-- `pathlib.Path(p).name`: the final path component (empty for the root). -/
def pathName (p : String) : String :=
  match (pathParts p).getLast? with
  | some s => if s == "/" then "" else s
  | none => ""

/-- `pathlib.Path(p).suffix`: the extension of the final component, i.e.
`name[i:]` for the last dot position `i` when `0 < i < len(name) - 1`. -/
def pathSuffix (p : String) : String :=
  let rev := (pathName p).toList.reverse
  let post := rev.takeWhile (fun c => c != '.')
  match rev.drop post.length with
  | [] => ""
  | _ :: r2 =>
    if !post.isEmpty && !r2.isEmpty then String.mk ('.' :: post.reverse) else ""

/-! ## Feedback store: learned associations
(`src/voyager/refinement/store.py`, table `learned_associations`)

The table is keyed by `context_key` (a `PRIMARY KEY`), so it is modelled as an
association list with at most one entry per key; `REAL` confidence values are
modelled as rationals. -/

structure AssocRow where
  skill_id : String
  confidence : ℚ
  hit_count : ℕ
  created_at : String
  updated_at : String
  deriving Repr, DecidableEq

abbrev AssocTable := List (String × AssocRow)

/-- The `DO UPDATE` arm of the upsert in `FeedbackStore.learn_association`:
`skill_id = excluded.skill_id`,
`confidence = (confidence * hit_count + excluded.confidence) / (hit_count + 1)`,
`hit_count = hit_count + 1`, `updated_at = excluded.updated_at`. -/
def updatedAssocRow (r : AssocRow) (skill_id : String) (confidence : ℚ)
    (now : String) : AssocRow :=
  { skill_id := skill_id
    confidence := (r.confidence * (r.hit_count : ℚ) + confidence) / ((r.hit_count : ℚ) + 1)
    hit_count := r.hit_count + 1
    created_at := r.created_at
    updated_at := now }

/-- `FeedbackStore.learn_association`: `INSERT ... ON CONFLICT(context_key) DO
UPDATE ...` against the keyed table. -/
def learn_association : AssocTable → String → String → ℚ → String → AssocTable
  | [], key, skill, conf, now => [(key, ⟨skill, conf, 1, now, now⟩)]
  | (k, r) :: rest, key, skill, conf, now =>
    if k == key then (k, updatedAssocRow r skill conf now) :: rest
    else (k, r) :: learn_association rest key skill conf now

/-- `SELECT ... FROM learned_associations WHERE context_key = ?`. -/
def lookupAssoc (t : AssocTable) (key : String) : Option AssocRow :=
  (t.find? (fun kv => kv.1 == key)).map (·.2)

/-- `FeedbackStore.get_learned_association`. -/
def get_learned_association (t : AssocTable) (key : String) : Option String :=
  (lookupAssoc t key).map (·.skill_id)

theorem lookupAssoc_learn_eq (t : AssocTable) (key skill : String) (conf : ℚ)
    (now : String) :
    lookupAssoc (learn_association t key skill conf now) key =
      some (match lookupAssoc t key with
            | some r => updatedAssocRow r skill conf now
            | none => ⟨skill, conf, 1, now, now⟩) := by
  induction t with
  | nil => simp [learn_association, lookupAssoc]
  | cons kv rest ih =>
    obtain ⟨k, r⟩ := kv
    by_cases h : k = key
    · subst h
      simp [learn_association, lookupAssoc, List.find?]
    · have hb : (k == key) = false := by simpa using h
      simp only [learn_association, lookupAssoc, List.find?, hb, cond_false,
        if_false, Bool.false_eq_true, ite_false] at ih ⊢
      exact ih

/-- C1: learning the same `context_key` twice with confidences `c1` then `c2`
leaves a stored row with confidence `(c1*1 + c2)/2` and `hit_count = 2`; in
general, a repeated observation updates the stored confidence to the running
mean `(old_confidence * hit_count + observed_confidence) / (hit_count + 1)`
and increments `hit_count` by one. -/
theorem learn_association_running_mean :
    (∀ (t : AssocTable) (key skill : String) (c : ℚ) (now : String) (r : AssocRow),
        lookupAssoc t key = some r →
        lookupAssoc (learn_association t key skill c now) key =
          some { skill_id := skill
                 confidence := (r.confidence * (r.hit_count : ℚ) + c) / ((r.hit_count : ℚ) + 1)
                 hit_count := r.hit_count + 1
                 created_at := r.created_at
                 updated_at := now }) ∧
    (∀ (t : AssocTable) (key s1 s2 : String) (c1 c2 : ℚ) (n1 n2 : String),
        lookupAssoc t key = none →
        (lookupAssoc (learn_association (learn_association t key s1 c1 n1) key s2 c2 n2)
              key).map (fun r => (r.confidence, r.hit_count)) =
          some ((c1 * 1 + c2) / 2, 2)) := by
  constructor
  · intro t key skill c now r hr
    rw [lookupAssoc_learn_eq, hr]
    rfl
  · intro t key s1 s2 c1 c2 n1 n2 hnone
    rw [lookupAssoc_learn_eq, lookupAssoc_learn_eq, hnone]
    simp [updatedAssocRow]
    norm_num

/-- Witness for C1 at concrete inputs. -/
theorem learn_association_running_mean_witness :
    lookupAssoc (learn_association [("Bash||git st", ⟨"a", 1/2, 3, "t0", "t0"⟩)]
        "Bash||git st" "b" 1 "t1") "Bash||git st" =
      some ⟨"b", (1/2 * (3 : ℚ) + 1) / ((3 : ℚ) + 1), 4, "t0", "t1"⟩ ∧
    (lookupAssoc (learn_association (learn_association [] "k" "a" (3/4) "t0")
          "k" "b" (1/4) "t1") "k").map (fun r => (r.confidence, r.hit_count)) =
      some ((3/4 * 1 + 1/4) / 2, 2) := by
  constructor
  · have h := learn_association_running_mean.1
      [("Bash||git st", ⟨"a", 1/2, 3, "t0", "t0"⟩)] "Bash||git st" "b" 1 "t1"
      ⟨"a", 1/2, 3, "t0", "t0"⟩ (by rfl)
    rw [h]
    norm_num
  · exact learn_association_running_mean.2 [] "k" "a" "b" (3/4) (1/4) "t0" "t1" rfl

/-- C9: when a `context_key` is already present, a subsequent
`learn_association` with a different skill unconditionally replaces the stored
`skill_id` with the new one, whatever the accumulated `hit_count` or
confidence of the old row. -/
theorem learn_association_overwrites_skill :
    ∀ (t : AssocTable) (key : String) (r : AssocRow) (skill : String) (c : ℚ)
      (now : String),
      lookupAssoc t key = some r →
      get_learned_association (learn_association t key skill c now) key = some skill := by
  intro t key r skill c now hr
  unfold get_learned_association
  rw [lookupAssoc_learn_eq, hr]
  rfl

/-- Witness for C9: a key reinforced to hit count 9 with full confidence is
still re-pointed at the new skill by a single later observation. -/
theorem learn_association_overwrites_skill_witness :
    get_learned_association
      (learn_association [("Write|.docx|", ⟨"docx", 1, 9, "t0", "t0"⟩)]
        "Write|.docx|" "pdf" (1/10) "t1") "Write|.docx|" = some "pdf" :=
  learn_association_overwrites_skill _ _ ⟨"docx", 1, 9, "t0", "t0"⟩ _ _ _ (by rfl)

/-! ## Skill detector (`src/voyager/refinement/detector.py`)

`tool_input` is a Python `dict[str, Any]`; the detector only ever reads the
string values of the `"file_path"` and `"command"` keys, so the dict is
modelled as an association list of string fields. -/

abbrev JsonObj := List (String × String)

/-- Python `tool_input.get(key, "")`. -/
def objGet (o : JsonObj) (key : String) : String :=
  match o.find? (fun kv => kv.1 == key) with
  | some kv => kv.2
  | none => ""

/-- `SkillDetector._make_context_key`:
`f"{tool_name}|{ext}|{command}"` with `ext = Path(file_path).suffix` when a
file path is present and `command = tool_input.get("command", "")[:50]`. -/
def make_context_key (tool_name : String) (tool_input : JsonObj) : String :=
  let file_path := objGet tool_input "file_path"
  let ext := if file_path == "" then "" else pathSuffix file_path
  let command := pyTake (objGet tool_input "command") 50
  tool_name ++ "|" ++ ext ++ "|" ++ command

/-- One line of the transcript JSONL, after `json.loads`: `none` models a line
that fails to parse (skipped); `some (tool_name, file_path)` models a parsed
record's `entry.get("tool_name")` and
`entry.get("tool_input", {}).get("file_path", "")`. -/
abbrev TranscriptLine := Option (String × String)

/-- The per-line skill extraction of `SkillDetector._detect_from_transcript`:
a `Read` of a path containing `"SKILL.md"` whose parts contain a `"skills"`
component followed by at least two further parts yields the part right after
the first `"skills"` component. -/
def extractSkillRead (path : String) : Option String :=
  if containsSub "SKILL.md" path then
    let parts := pathParts path
    if parts.contains "skills" then
      let idx := parts.findIdx (fun s => s == "skills")
      if idx + 1 < parts.length - 1 then some (parts.getD (idx + 1) "") else none
    else none
  else none

def transcriptSkillRead : TranscriptLine → Option String
  | some (tn, fp) => if tn == "Read" then extractSkillRead fp else none
  | none => none

/-- `SkillDetector._detect_from_transcript`: collect the skill reads in file
order and return the most recent one. -/
def detectFromTranscript (lines : List TranscriptLine) : Option String :=
  (lines.filterMap transcriptSkillRead).getLast?

/-- `SkillDetector.detect`, as a function of its environment: the learned
association table, the cached availability probe and result of the semantic
index strategy, the `use_llm` flag and the LLM strategy's result, and the
parsed transcript (`none` models a missing/falsy `transcript_path`; an
unreadable transcript file behaves like a transcript with no skill reads).
The association write-back of strategies 3 and 4 does not affect the returned
skill and is not modelled here. -/
def detect (store : AssocTable) (colbert_available : Bool)
    (colbert_result : Option String) (use_llm : Bool) (llm_result : Option String)
    (tool_name : String) (tool_input : JsonObj)
    (transcript : Option (List TranscriptLine)) : Option String :=
  let fromTranscript :=
    match transcript with
    | some lines => detectFromTranscript lines
    | none => none
  match fromTranscript with
  | some s => some s
  | none =>
    let context_key := make_context_key tool_name tool_input
    match get_learned_association store context_key with
    | some s => some s
    | none =>
      match (if colbert_available then colbert_result else none) with
      | some s => some s
      | none =>
        match (if use_llm then llm_result else none) with
        | some s => some s
        | none => none

example : pathSuffix "notes.docx" = ".docx" := by decide
example : pathSuffix ".bashrc" = "" := by decide
example : make_context_key "Write" [("file_path", "notes.docx")] = "Write|.docx|" := by decide
example : extractSkillRead "/mnt/skills/docx/SKILL.md" = some "docx" := by decide
example : extractSkillRead "skills/session-brain/SKILL.md" = some "session-brain" := by decide
example : extractSkillRead "skills/a/skills/b/SKILL.md" = some "a" := by decide
example : extractSkillRead "skills/SKILL.md" = none := by decide

/-- A path "of the form `.../skills/<id>/SKILL.md`": it is, or ends with a
`/`-separated occurrence of, `skills/<id>/SKILL.md` for a nonempty,
slash-free `<id>`. -/
def SkillPathForm (path id : String) : Prop :=
  id ≠ "" ∧ ¬ id.toList.contains '/' ∧
  (path = "skills/" ++ id ++ "/SKILL.md" ∨
    pyEndsWith path ("/skills/" ++ id ++ "/SKILL.md") = true)

/-- C2 fails as stated: in `skills/a/skills/b/SKILL.md`, which has the form
`.../skills/<id>/SKILL.md` with `<id> = "b"`, the detector extracts the
segment after the *first* `skills` component and returns `"a"`, not `"b"`. -/
theorem detect_transcript_first_skills_counterexample :
    SkillPathForm "skills/a/skills/b/SKILL.md" "b" ∧
    detect [] false none false none "Write" []
        (some [some ("Read", "skills/a/skills/b/SKILL.md")]) = some "a" ∧
    ("a" : String) ≠ "b" := by
  refine ⟨⟨by decide, by decide, Or.inr (by decide)⟩, by decide, by decide⟩

/-- C2 (amended): when the transcript's collected skill reads — for each
parsed `Read` line, the part following the *first* `skills` component of a
path containing `SKILL.md` — are nonempty, `detect` returns the most recently
read one (last in file order), regardless of learned associations, semantic
index or LLM results. -/
theorem detect_transcript_outranks_learned :
    ∀ (store : AssocTable) (ca : Bool) (cr : Option String) (ul : Bool)
      (lr : Option String) (tool_name : String) (tool_input : JsonObj)
      (lines : List TranscriptLine) (s : String),
      (lines.filterMap transcriptSkillRead).getLast? = some s →
      detect store ca cr ul lr tool_name tool_input (some lines) = some s := by
  intro store ca cr ul lr tool_name tool_input lines s h
  simp [detect, detectFromTranscript, h]

/-- Witness for C2 (amended): the transcript shows a read of
`session-brain`'s skill file while the learned association for the same
context key points to `other-skill`; the transcript wins. -/
theorem detect_transcript_outranks_learned_witness :
    detect [("Write|.md|", ⟨"other-skill", 1, 5, "t", "t"⟩)] true (some "colbert-skill")
      true (some "llm-skill") "Write" [("file_path", "notes.md")]
      (some [some ("Read", "/mnt/skills/session-brain/SKILL.md")]) =
      some "session-brain" :=
  detect_transcript_outranks_learned _ _ _ _ _ _ _ _ _ (by decide)

/-- C8: with no transcript (or a transcript yielding no skill read), no
learned association for the computed context key, the semantic index
unavailable, and `use_llm = False`, `detect` returns `none` — the cascade
falls all the way through. -/
theorem detect_none_when_no_signal :
    ∀ (store : AssocTable) (tool_name : String) (tool_input : JsonObj)
      (transcript : Option (List TranscriptLine)) (cr lr : Option String),
      (transcript = none ∨
        ∃ lines, transcript = some lines ∧ detectFromTranscript lines = none) →
      get_learned_association store (make_context_key tool_name tool_input) = none →
      detect store false cr false lr tool_name tool_input transcript = none := by
  intro store tool_name tool_input transcript cr lr ht hl
  unfold detect
  rcases ht with h | ⟨lines, rfl, h⟩ <;> simp [h, hl]

/-- Witness for C8: the spec scenario `tool_name="Write"`,
`tool_input={"file_path": "notes.docx"}`, empty store, no transcript. -/
theorem detect_none_when_no_signal_witness :
    detect [] false none false none "Write" [("file_path", "notes.docx")] none = none :=
  detect_none_when_no_signal [] "Write" [("file_path", "notes.docx")] none none none
    (Or.inl rfl) (by decide)

/-! ## Feedback store: tool executions
(`src/voyager/refinement/store.py`, table `tool_executions`)

`tool_input` / `tool_response` travel through `json.dumps` into a `TEXT`
column and back through `json.loads`; since that round trip is the identity
on dict values, a stored column is modelled as the `Option` of the dict
itself, with `none` for SQL `NULL`.  What the embedding keeps exactly is the
code's truthiness decisions: `json.dumps(x) if x else None` on write and
`json.loads(v) if v else default` on read. -/

structure ToolExecution where
  session_id : String
  tool_name : String
  tool_input : JsonObj
  tool_response : Option JsonObj
  success : Bool
  error_message : Option String
  duration_ms : Option Int
  skill_used : Option String
  timestamp : String
  deriving Repr, DecidableEq

/-- A row of the `tool_executions` table (the columns selected by
`get_session_executions`; the autoincrement id is irrelevant to the claims). -/
structure ExecRow where
  session_id : String
  tool_name : String
  tool_input : Option JsonObj
  tool_response : Option JsonObj
  success : Bool
  error_message : Option String
  duration_ms : Option Int
  skill_used : Option String
  timestamp : String
  deriving Repr, DecidableEq

abbrev ExecTable := List ExecRow

/-- The column values computed by the `INSERT` in
`FeedbackStore.log_tool_execution`: `json.dumps(execution.tool_input)` is a
nonempty string (never `NULL`), while
`json.dumps(execution.tool_response) if execution.tool_response else None`
stores `NULL` for both `None` and the falsy empty dict `{}`. -/
def encodeExecution (e : ToolExecution) : ExecRow :=
  { session_id := e.session_id
    tool_name := e.tool_name
    tool_input := some e.tool_input
    tool_response :=
      match e.tool_response with
      | some o => if o.isEmpty then none else some o
      | none => none
    success := e.success
    error_message := e.error_message
    duration_ms := e.duration_ms
    skill_used := e.skill_used
    timestamp := e.timestamp }

/-- `FeedbackStore.log_tool_execution`: append the encoded row. -/
def log_tool_execution (db : ExecTable) (e : ToolExecution) : ExecTable :=
  db ++ [encodeExecution e]

/-- Row decoding in `FeedbackStore.get_session_executions`:
`json.loads(r["tool_input"]) if r["tool_input"] else {}` and
`json.loads(r["tool_response"]) if r["tool_response"] else None`;
`success` is read back through `bool(...)`. -/
def decodeExecRow (r : ExecRow) : ToolExecution :=
  { session_id := r.session_id
    tool_name := r.tool_name
    tool_input := (r.tool_input).getD []
    tool_response := r.tool_response
    success := r.success
    error_message := r.error_message
    duration_ms := r.duration_ms
    skill_used := r.skill_used
    timestamp := r.timestamp }

/-- `FeedbackStore.get_session_executions`:
`SELECT ... WHERE session_id = ? ORDER BY timestamp` (modelled with a stable
sort on the timestamp column), decoded row by row. -/
def get_session_executions (db : ExecTable) (session_id : String) : List ToolExecution :=
  ((db.filter (fun r => r.session_id == session_id)).insertionSort
      (fun a b => a.timestamp ≤ b.timestamp)).map decodeExecRow

/-- Decoding inverts encoding except on the falsy empty-dict response. -/
theorem decode_encode_execution (e : ToolExecution) (h : e.tool_response ≠ some []) :
    decodeExecRow (encodeExecution e) = e := by
  rcases e with ⟨sid, tn, ti, tr, su, em, dm, sk, ts⟩
  rcases tr with _ | o
  · rfl
  · have ho : o ≠ [] := fun h' => h (by simp [h'])
    simp [decodeExecRow, encodeExecution, List.isEmpty_iff, ho]

/-- C4 (amended): a `ToolExecution` whose `tool_response` is not the empty
dict `{}` is reproduced field-for-field by inserting it and fetching its
session's executions back, whatever else the table contains. -/
theorem tool_execution_roundtrip_amended :
    ∀ (db : ExecTable) (e : ToolExecution),
      e.tool_response ≠ some [] →
      e ∈ get_session_executions (log_tool_execution db e) e.session_id := by
  intro db e h
  unfold get_session_executions log_tool_execution
  have hmem : encodeExecution e ∈
      (db ++ [encodeExecution e]).filter (fun r => r.session_id == e.session_id) := by
    refine List.mem_filter.2 ⟨by simp, ?_⟩
    simp [encodeExecution]
  have hmem2 : encodeExecution e ∈
      ((db ++ [encodeExecution e]).filter (fun r => r.session_id == e.session_id)).insertionSort
        (fun a b => a.timestamp ≤ b.timestamp) :=
    ((List.perm_insertionSort _ _).mem_iff).2 hmem
  have := List.mem_map_of_mem decodeExecRow hmem2
  rwa [decode_encode_execution e h] at this

/-- Witness for C4 (amended): a fully-populated record with a nonempty
structured response survives the round trip. -/
theorem tool_execution_roundtrip_amended_witness :
    ({ session_id := "s1", tool_name := "Bash"
       tool_input := [("command", "ls")]
       tool_response := some [("stdout", "ok")]
       success := true, error_message := none, duration_ms := some 12
       skill_used := some "session-brain", timestamp := "2024-01-01T00:00:00" } : ToolExecution) ∈
      get_session_executions
        (log_tool_execution
          [{ session_id := "other", tool_name := "Read", tool_input := some []
             tool_response := none, success := false, error_message := some "boom"
             duration_ms := none, skill_used := none, timestamp := "2023-12-31T00:00:00" }]
          { session_id := "s1", tool_name := "Bash"
            tool_input := [("command", "ls")]
            tool_response := some [("stdout", "ok")]
            success := true, error_message := none, duration_ms := some 12
            skill_used := some "session-brain", timestamp := "2024-01-01T00:00:00" }) "s1" :=
  tool_execution_roundtrip_amended _ _ (by decide)

/-- C4 fails as stated: a record whose `tool_response` is the (falsy) empty
dict `{}` comes back with `tool_response = None`, so the fetched record is
not equal to the inserted one in every field. -/
theorem tool_execution_roundtrip_counterexample :
    get_session_executions
        (log_tool_execution []
          { session_id := "s", tool_name := "Write", tool_input := []
            tool_response := some [], success := true, error_message := none
            duration_ms := none, skill_used := none, timestamp := "t" }) "s" =
      [{ session_id := "s", tool_name := "Write", tool_input := []
         tool_response := none, success := true, error_message := none
         duration_ms := none, skill_used := none, timestamp := "t" }] ∧
    ({ session_id := "s", tool_name := "Write", tool_input := []
       tool_response := none, success := true, error_message := none
       duration_ms := none, skill_used := none, timestamp := "t" } : ToolExecution) ≠
      { session_id := "s", tool_name := "Write", tool_input := []
        tool_response := some [], success := true, error_message := none
        duration_ms := none, skill_used := none, timestamp := "t" } := by
  constructor
  · simp [get_session_executions, log_tool_execution, encodeExecution, decodeExecRow,
      List.insertionSort]
  · decide

/-- C10: a falsy `tool_response` — `None` or the empty dict `{}` — is stored
as SQL `NULL`, and the record fetched back carries `tool_response = None`:
the store boundary does not preserve the distinction between an absent and an
empty structured response. -/
theorem tool_response_empty_stored_null :
    ∀ (db : ExecTable) (e : ToolExecution),
      (e.tool_response = none ∨ e.tool_response = some []) →
      (encodeExecution e).tool_response = none ∧
      decodeExecRow (encodeExecution e) = { e with tool_response := none } ∧
      ({ e with tool_response := none } : ToolExecution) ∈
        get_session_executions (log_tool_execution db e) e.session_id := by
  intro db e h
  have henc : (encodeExecution e).tool_response = none := by
    rcases h with h | h <;> simp [encodeExecution, h]
  have hdec : decodeExecRow (encodeExecution e) = { e with tool_response := none } := by
    rcases e with ⟨sid, tn, ti, tr, su, em, dm, sk, ts⟩
    rcases h with h | h <;> simp_all [decodeExecRow, encodeExecution]
  refine ⟨henc, hdec, ?_⟩
  unfold get_session_executions log_tool_execution
  have hmem : encodeExecution e ∈
      (db ++ [encodeExecution e]).filter (fun r => r.session_id == e.session_id) := by
    refine List.mem_filter.2 ⟨by simp, ?_⟩
    simp [encodeExecution]
  have hmem2 : encodeExecution e ∈
      ((db ++ [encodeExecution e]).filter (fun r => r.session_id == e.session_id)).insertionSort
        (fun a b => a.timestamp ≤ b.timestamp) :=
    ((List.perm_insertionSort _ _).mem_iff).2 hmem
  have := List.mem_map_of_mem decodeExecRow hmem2
  rwa [hdec] at this

/-- Witness for C10 at the empty-dict response. -/
theorem tool_response_empty_stored_null_witness :
    (encodeExecution
        { session_id := "s", tool_name := "Write", tool_input := []
          tool_response := some [], success := true, error_message := none
          duration_ms := none, skill_used := none, timestamp := "t" }).tool_response = none ∧
    decodeExecRow (encodeExecution
        { session_id := "s", tool_name := "Write", tool_input := []
          tool_response := some [], success := true, error_message := none
          duration_ms := none, skill_used := none, timestamp := "t" }) =
      { session_id := "s", tool_name := "Write", tool_input := []
        tool_response := none, success := true, error_message := none
        duration_ms := none, skill_used := none, timestamp := "t" } ∧
    ({ session_id := "s", tool_name := "Write", tool_input := []
       tool_response := none, success := true, error_message := none
       duration_ms := none, skill_used := none, timestamp := "t" } : ToolExecution) ∈
      get_session_executions
        (log_tool_execution []
          { session_id := "s", tool_name := "Write", tool_input := []
            tool_response := some [], success := true, error_message := none
            duration_ms := none, skill_used := none, timestamp := "t" }) "s" :=
  tool_response_empty_stored_null []
    { session_id := "s", tool_name := "Write", tool_input := []
      tool_response := some [], success := true, error_message := none
      duration_ms := none, skill_used := none, timestamp := "t" } (Or.inr rfl)

/-! ## Gitignore matcher (`src/voyager/repo/snapshot.py`, `_Gitignore`)

The matching primitive is Python's `fnmatch.fnmatchcase`: `*` matches any
character run (including `/`), `?` any single character, `[...]`/`[!...]`
character classes with ranges, a `]` right after the (possibly negated)
opening bracket is a literal member, and an unterminated `[` is a literal
`[`. -/

/-- Scan for the closing `]` of a character class, returning the class body
and the rest of the pattern; `none` when the class is unterminated. -/
def splitOnRBracket : List Char → Option (List Char × List Char)
  | [] => none
  | ']' :: rest => some ([], rest)
  | c :: rest => (splitOnRBracket rest).map (fun p => (c :: p.1, p.2))

/-- A `]` immediately after the opening bracket is a literal class member. -/
def splitClass (ps : List Char) : Option (List Char × List Char) :=
  match ps with
  | ']' :: rest => (splitOnRBracket rest).map (fun p => (']' :: p.1, p.2))
  | _ => splitOnRBracket ps

/-- Class membership: `a-b` ranges (a trailing or leading `-` is literal). -/
def inClass : List Char → Char → Bool
  | a :: '-' :: b :: rest, c => (a ≤ c && c ≤ b) || inClass rest c
  | a :: rest, c => (a == c) || inClass rest c
  | [], _ => false

/-- The glob matcher of `fnmatch.fnmatchcase`, first argument the pattern,
second the name.  Written with explicit fuel to keep it kernel-reducible;
every recursive step shrinks `pattern.length + string.length`, so the wrapper
below always supplies enough fuel. -/
def globMatchF : Nat → List Char → List Char → Bool
  | 0, _, _ => false
  | fuel + 1, pattern, string =>
    match pattern, string with
    | [], [] => true
    | [], _ :: _ => false
    | '*' :: ps, [] => globMatchF fuel ps []
    | '*' :: ps, c :: cs => globMatchF fuel ps (c :: cs) || globMatchF fuel ('*' :: ps) cs
    | '?' :: ps, _ :: cs => globMatchF fuel ps cs
    | '?' :: _, [] => false
    | '[' :: ps, cs =>
      let neg := ps.head? == some '!'
      let body := if neg then ps.tail else ps
      match splitClass body, cs with
      | some (items, rest), c :: cs2 => (inClass items c != neg) && globMatchF fuel rest cs2
      | some _, [] => false
      | none, c :: cs2 => ('[' == c) && globMatchF fuel ps cs2
      | none, [] => false
    | p :: ps, c :: cs => (p == c) && globMatchF fuel ps cs
    | _ :: _, [] => false

def globMatch (pattern string : List Char) : Bool :=
  globMatchF (pattern.length + string.length + 1) pattern string

/-- `fnmatch.fnmatchcase(name, pattern)`. -/
def fnmatchcase (name pat : String) : Bool := globMatch pat.toList name.toList

structure IgnoreRule where
  pattern : String
  negate : Bool
  dir_only : Bool
  anchored : Bool
  deriving Repr, DecidableEq

/-- The per-line parsing of `_Gitignore.from_root` (the file read aside):
skip blanks and comments, a leading `!` negates, a leading `/` anchors, a
trailing `/` restricts to directories. -/
def parseIgnoreLine (raw : String) : Option IgnoreRule :=
  let line := pyStrip raw
  if line == "" || pyStartsWith line "#" then none
  else
    let negate := pyStartsWith line "!"
    let line1 := if negate then pyStrip (pyDrop line 1) else line
    if line1 == "" then none
    else
      let anchored := pyStartsWith line1 "/"
      let line2 := if anchored then pyDrop line1 1 else line1
      let dir_only := pyEndsWith line2 "/"
      let line3 := if dir_only then pyDropLast line2 else line2
      if line3 == "" then none
      else some ⟨line3, negate, dir_only, anchored⟩

/-- `_Gitignore.from_root`, applied to the lines of the root ignore file. -/
def gitignoreFromLines (text_lines : List String) : List IgnoreRule :=
  text_lines.filterMap parseIgnoreLine

/-- `Path.as_posix()` for a relative path given by its parts. -/
def joinParts : List String → String
  | [] => ""
  | [p] => p
  | p :: rest => p ++ "/" ++ joinParts rest

/-- The per-rule match of `_Gitignore.is_ignored`: anchored and
slash-containing patterns are matched against `rel_posix`, slash-free
patterns against each path segment. -/
def ruleMatches (rule : IgnoreRule) (relPosix : String) (parts : List String) : Bool :=
  if rule.anchored then fnmatchcase relPosix rule.pattern
  else if rule.pattern.toList.contains '/' then fnmatchcase relPosix rule.pattern
  else parts.any (fun part => fnmatchcase part rule.pattern)

/-- `_Gitignore.is_ignored(rel_path, is_dir)` with the relative path given by
its parts: `rel_posix = rel_path.as_posix().lstrip("./")`, then a fold over
the rules updating the verdict. -/
def is_ignored (rules : List IgnoreRule) (parts : List String) (is_dir : Bool) : Bool :=
  let relPosix := lstripDotSlash (joinParts parts)
  rules.foldl (fun ignored rule =>
    if rule.dir_only && !is_dir then ignored
    else if ruleMatches rule relPosix parts then !rule.negate
    else ignored) false

/-- Last-matching-rule semantics over an explicitly given `rel_posix`. -/
def lastMatchVerdict (rules : List IgnoreRule) (relPosix : String)
    (parts : List String) (is_dir : Bool) : Bool :=
  match (rules.filter (fun r =>
      !(r.dir_only && !is_dir) && ruleMatches r relPosix parts)).getLast? with
  | some r => !r.negate
  | none => false

/-- Modelled from the claim's words: rules applied in file order with the
last match winning, where anchored and slash-containing patterns are matched
against the **full** POSIX relative path (no `lstrip`). -/
def is_ignored_specFullPath (rules : List IgnoreRule) (parts : List String)
    (is_dir : Bool) : Bool :=
  lastMatchVerdict rules (joinParts parts) parts is_dir

example : fnmatchcase "ignored.txt" "ignored.txt" = true := by decide
example : fnmatchcase "axc" "a?c" = true := by decide
example : fnmatchcase "build/out" "build/*" = true := by decide
example : fnmatchcase "abc" "a[b!]c" = true := by decide
example : fnmatchcase "adc" "a[!b]c" = true := by decide
example : fnmatchcase "abc" "a[!b]c" = false := by decide
example : fnmatchcase "a[c" "a[c" = true := by decide
example : fnmatchcase "amc" "a[b-z]c" = true := by decide
example : gitignoreFromLines ["# c", "", "!keep/", "/.x", "b.txt "] =
    [⟨"keep", true, true, false⟩, ⟨".x", false, false, true⟩,
     ⟨"b.txt", false, false, false⟩] := by decide

theorem foldl_ignore_eq (relPosix : String) (parts : List String) (is_dir : Bool) :
    ∀ (rules : List IgnoreRule) (acc : Bool),
      rules.foldl (fun ignored rule =>
        if rule.dir_only && !is_dir then ignored
        else if ruleMatches rule relPosix parts then !rule.negate
        else ignored) acc =
      match (rules.filter (fun r =>
          !(r.dir_only && !is_dir) && ruleMatches r relPosix parts)).getLast? with
      | some r => !r.negate
      | none => acc := by
  intro rules
  induction rules with
  | nil => intro acc; rfl
  | cons r rs ih =>
    intro acc
    rw [List.foldl_cons]
    by_cases h1 : (r.dir_only && !is_dir) = true
    · have hpred : (!(r.dir_only && !is_dir) && ruleMatches r relPosix parts) = false := by
        rw [h1]; rfl
      rw [if_pos h1, ih, List.filter_cons, hpred, if_neg Bool.false_ne_true]
    · have h1f : (r.dir_only && !is_dir) = false := by simpa using h1
      rw [if_neg h1]
      by_cases hm : ruleMatches r relPosix parts = true
      · have hpred : (!(r.dir_only && !is_dir) && ruleMatches r relPosix parts) = true := by
          rw [h1f, hm]; rfl
        rw [if_pos hm, ih, List.filter_cons, hpred, if_pos rfl]
        cases hrs : rs.filter (fun r =>
            !(r.dir_only && !is_dir) && ruleMatches r relPosix parts) with
        | nil => rfl
        | cons x xs =>
          rw [List.getLast?_cons_cons]
          cases hlast : (x :: xs).getLast? with
          | some y => rfl
          | none => exact absurd (List.getLast?_eq_none_iff.1 hlast) (by simp)
      · have hmf : ruleMatches r relPosix parts = false := by simpa using hm
        have hpred : (!(r.dir_only && !is_dir) && ruleMatches r relPosix parts) = false := by
          rw [hmf]; simp
        rw [if_neg hm, ih, List.filter_cons, hpred, if_neg Bool.false_ne_true]

/-- C6 (amended): `is_ignored` implements last-matching-rule-wins semantics —
rules are folded in file order, a matching rule overwrites the verdict with
its polarity, `dir_only` rules are skipped for non-directories, and a path
matching no rule is not ignored — with anchored and slash-containing patterns
glob-matched against the POSIX relative path **after stripping leading `.`
and `/` characters** (`rel_posix.lstrip("./")`), and slash-free patterns
matched against the unstripped path segments. -/
theorem is_ignored_last_match_wins :
    ∀ (rules : List IgnoreRule) (parts : List String) (is_dir : Bool),
      is_ignored rules parts is_dir =
        lastMatchVerdict rules (lstripDotSlash (joinParts parts)) parts is_dir := by
  intro rules parts is_dir
  unfold is_ignored lastMatchVerdict
  exact foldl_ignore_eq _ _ _ rules false

/-- C6 fails as stated: for the anchored rule `/.x` and the relative path
`.x`, matching against the full POSIX relative path would ignore the path,
but `is_ignored` matches against `".x".lstrip("./") = "x"` and does not. -/
theorem is_ignored_lstrip_counterexample :
    gitignoreFromLines ["/.x"] = [⟨".x", false, false, true⟩] ∧
    is_ignored_specFullPath (gitignoreFromLines ["/.x"]) [".x"] false = true ∧
    is_ignored (gitignoreFromLines ["/.x"]) [".x"] false = false := by decide

/-! ## Filesystem scanner model (`src/voyager/repo/snapshot.py`)

A filesystem is a tree of named entries in `iterdir` order (modelled as a
mutual inductive pair so that all traversals are structural and computable).
The module constants are kept under their source names. -/

def MAX_TOP_LEVEL_ENTRIES : Nat := 50
def MAX_RECENT_COMMITS : Nat := 10
def MAX_HINT_LINES : Nat := 20
def MAX_HINT_LINE_LENGTH : Nat := 200
def DIR_SUMMARY_MAX_DEPTH : Nat := 4
def DIR_SUMMARY_MAX_ITEMS : Nat := 1000
def TREE_MAX_LINES : Nat := 120
def TREE_MAX_CHARS : Nat := 8000

mutual
inductive FSTree where
  | file : FSTree
  | dir (entries : FSEntries) : FSTree
  deriving Repr, DecidableEq
inductive FSEntries where
  | nil : FSEntries
  | cons (name : String) (t : FSTree) (rest : FSEntries) : FSEntries
  deriving Repr, DecidableEq
end

def FSTree.isDir : FSTree → Bool
  | .file => false
  | .dir _ => true

def FSTree.entriesOf : FSTree → FSEntries
  | .file => .nil
  | .dir es => es

def listEntries : FSEntries → List (String × FSTree)
  | .nil => []
  | .cons n t rest => (n, t) :: listEntries rest

mutual
def FSTree.size : FSTree → Nat
  | .file => 1
  | .dir es => 1 + FSEntries.size es
def FSEntries.size : FSEntries → Nat
  | .nil => 0
  | .cons _ t rest => 1 + FSTree.size t + FSEntries.size rest
end

mutual
def totalFilesT : FSTree → Nat
  | .file => 1
  | .dir es => totalFilesE es
def totalFilesE : FSEntries → Nat
  | .nil => 0
  | .cons _ t rest => totalFilesT t + totalFilesE rest
end

/-- A work-queue item of `count_dir`: a directory's entries, the directory's
path relative to the scan root, and its queue depth. -/
abbrev WalkItem := FSEntries × List String × Nat

def queueSize : List WalkItem → Nat
  | [] => 0
  | (es, _, _) :: rest => 1 + FSEntries.size es + queueSize rest

/-- The inner `for entry in current.iterdir()` loop of `count_dir`: skip
dotfiles and ignored entries, count the rest, return early (`none`, standing
for `return DIR_SUMMARY_MAX_ITEMS`) when the count reaches the cap, and push
non-dot, non-ignored subdirectories within the depth bound. -/
def procEntries (rules : List IgnoreRule) :
    FSEntries → List String → Nat → Nat → List WalkItem → Option (Nat × List WalkItem)
  | .nil, _, _, count, queue => some (count, queue)
  | .cons name t rest, rel, depth, count, queue =>
    if pyStartsWith name "." then procEntries rules rest rel depth count queue
    else if is_ignored rules (rel ++ [name]) t.isDir then
      procEntries rules rest rel depth count queue
    else if DIR_SUMMARY_MAX_ITEMS ≤ count + 1 then none
    else
      procEntries rules rest rel depth (count + 1)
        (if t.isDir && depth < DIR_SUMMARY_MAX_DEPTH then
          (t.entriesOf, rel ++ [name], depth + 1) :: queue
        else queue)

/-- The `while queue and count < DIR_SUMMARY_MAX_ITEMS` loop of `count_dir`,
with explicit fuel to stay computable (each iteration strictly decreases
`queueSize`, so the fuel supplied by `count_dir` below never runs out).
Items are pushed and popped at the same end, as in the Python list. -/
def walkCountF (rules : List IgnoreRule) : Nat → List WalkItem → Nat → Nat
  | 0, _, count => min count DIR_SUMMARY_MAX_ITEMS
  | fuel + 1, queue, count =>
    match queue with
    | [] => min count DIR_SUMMARY_MAX_ITEMS
    | (entries, rel, depth) :: rest =>
      if DIR_SUMMARY_MAX_ITEMS ≤ count then min count DIR_SUMMARY_MAX_ITEMS
      else if DIR_SUMMARY_MAX_DEPTH < depth then walkCountF rules fuel rest count
      else
        match procEntries rules entries rel depth count rest with
        | none => DIR_SUMMARY_MAX_ITEMS
        | some (count2, queue2) => walkCountF rules fuel queue2 count2

/-- `count_dir(top_dir)` of `_get_directory_summary`, for a top-level entry
named `name`. -/
def count_dir (rules : List IgnoreRule) (name : String) (t : FSTree) : Nat :=
  walkCountF rules (queueSize [(t.entriesOf, [name], 0)] + 1) [(t.entriesOf, [name], 0)] 0

/-- `_get_directory_summary` on the fallback (pure-walk) path: one count per
non-dot, non-ignored top-level directory. -/
def get_directory_summary_fallback (rules : List IgnoreRule) (root : FSEntries) :
    List (String × Nat) :=
  (listEntries root).filterMap (fun p =>
    if pyStartsWith p.1 "." then none
    else if p.2.isDir then
      if is_ignored rules [p.1] true then none
      else some (p.1, count_dir rules p.1 p.2)
    else none)

/-- Lexicographic code-point order on strings (Python `str` comparison). -/
def charListLe : List Char → List Char → Bool
  | [], _ => true
  | _ :: _, [] => false
  | a :: as, b :: bs => if a < b then true else if b < a then false else charListLe as bs

def pyStrLe (a b : String) : Bool := charListLe a.toList b.toList

/-- `_get_top_level_entries` on the fallback path: `sorted(root.iterdir())`,
skip dotfiles and ignored entries, stop at `MAX_TOP_LEVEL_ENTRIES`. -/
def get_top_level_entries_fallback (rules : List IgnoreRule) (root : FSEntries) :
    List (String × String) :=
  ((((listEntries root).insertionSort (fun a b => pyStrLe a.1 b.1 = true)).filter (fun p =>
      !pyStartsWith p.1 "." && !is_ignored rules [p.1] p.2.isDir)).take
    MAX_TOP_LEVEL_ENTRIES).map
    (fun p => (p.1, if p.2.isDir then "dir" else "file"))

/- The entries the queue walk can reach and count, starting from entries at
a given depth: non-dot, non-ignored entries, descending only into
subdirectories below `DIR_SUMMARY_MAX_DEPTH`. -/
mutual
def countableE (rules : List IgnoreRule) : FSEntries → List String → Nat → Nat
  | .nil, _, _ => 0
  | .cons name t rest, rel, depth =>
    (if pyStartsWith name "." then 0
     else if is_ignored rules (rel ++ [name]) t.isDir then 0
     else 1 + countableSub rules t (rel ++ [name]) depth) +
    countableE rules rest rel depth
def countableSub (rules : List IgnoreRule) : FSTree → List String → Nat → Nat
  | .file, _, _ => 0
  | .dir es, rel, depth =>
    if depth < DIR_SUMMARY_MAX_DEPTH then countableE rules es rel (depth + 1) else 0
end

def countableQueue (rules : List IgnoreRule) : List WalkItem → Nat
  | [] => 0
  | (es, rel, depth) :: rest =>
    (if DIR_SUMMARY_MAX_DEPTH < depth then 0 else countableE rules es rel depth) +
    countableQueue rules rest

def FSEntries.indOn {motive : FSEntries → Prop} (h0 : motive .nil)
    (h1 : ∀ n t rest, motive rest → motive (.cons n t rest)) :
    (es : FSEntries) → motive es
  | .nil => h0
  | .cons n t rest => h1 n t rest (FSEntries.indOn h0 h1 rest)

theorem size_entriesOf (t : FSTree) : FSEntries.size t.entriesOf ≤ FSTree.size t :=
  match t with
  | .file => by simp [FSTree.entriesOf, FSTree.size, FSEntries.size]
  | .dir es => by simp [FSTree.entriesOf, FSTree.size]

theorem procEntries_size (rules : List IgnoreRule) (es : FSEntries) :
    ∀ (rel : List String) (depth count : Nat) (queue : List WalkItem)
      (c2 : Nat) (q2 : List WalkItem),
      procEntries rules es rel depth count queue = some (c2, q2) →
      queueSize q2 ≤ queueSize queue + FSEntries.size es := by
  induction es using FSEntries.indOn with
  | h0 =>
    intro rel depth count queue c2 q2 h
    simp only [procEntries, Option.some.injEq, Prod.mk.injEq] at h
    obtain ⟨rfl, rfl⟩ := h.symm
    simp [FSEntries.size]
  | h1 name t rest ih =>
    intro rel depth count queue c2 q2 h
    simp only [procEntries] at h
    split at h
    · have := ih rel depth count queue c2 q2 h
      simp only [FSEntries.size]
      omega
    · split at h
      · have := ih rel depth count queue c2 q2 h
        simp only [FSEntries.size]
        omega
      · split at h
        · exact absurd h (by simp)
        · by_cases hpush : (t.isDir && decide (depth < DIR_SUMMARY_MAX_DEPTH)) = true
          · rw [if_pos hpush] at h
            have := ih (rel) depth (count + 1)
              ((t.entriesOf, rel ++ [name], depth + 1) :: queue) c2 q2 h
            have hsz := size_entriesOf t
            simp only [queueSize, FSEntries.size] at this ⊢
            omega
          · rw [if_neg hpush] at h
            have := ih rel depth (count + 1) queue c2 q2 h
            simp only [FSEntries.size]
            omega

theorem procEntries_none (rules : List IgnoreRule) (es : FSEntries) :
    ∀ (rel : List String) (depth count : Nat) (queue : List WalkItem),
      procEntries rules es rel depth count queue = none →
      DIR_SUMMARY_MAX_ITEMS ≤ count + countableE rules es rel depth := by
  induction es using FSEntries.indOn with
  | h0 => intro rel depth count queue h; simp [procEntries] at h
  | h1 name t rest ih =>
    intro rel depth count queue h
    simp only [procEntries] at h
    rw [countableE]
    split at h
    · rename_i hdot
      rw [if_pos hdot]
      have := ih rel depth count queue h
      omega
    · rename_i hdot
      rw [if_neg hdot]
      split at h
      · rename_i hign
        rw [if_pos hign]
        have := ih rel depth count queue h
        omega
      · rename_i hign
        rw [if_neg hign]
        split at h
        · rename_i hcap
          omega
        · rename_i hcap
          by_cases hpush : (t.isDir && decide (depth < DIR_SUMMARY_MAX_DEPTH)) = true
          · rw [if_pos hpush] at h
            have := ih rel depth (count + 1) _ h
            omega
          · rw [if_neg hpush] at h
            have := ih rel depth (count + 1) queue h
            omega

theorem countableQueue_push (rules : List IgnoreRule) (t : FSTree)
    (relName : List String) (depth : Nat) (queue : List WalkItem) :
    countableQueue rules
        (if t.isDir && decide (depth < DIR_SUMMARY_MAX_DEPTH) then
          (t.entriesOf, relName, depth + 1) :: queue
        else queue) =
      countableSub rules t relName depth + countableQueue rules queue :=
  match t with
  | .file => by simp [countableSub, FSTree.isDir]
  | .dir es => by
    by_cases hd : depth < DIR_SUMMARY_MAX_DEPTH
    · have : DIR_SUMMARY_MAX_DEPTH < depth + 1 ↔ False := by
        simp [DIR_SUMMARY_MAX_DEPTH] at hd ⊢
        omega
      simp [countableSub, FSTree.isDir, FSTree.entriesOf, hd, countableQueue, this]
    · simp [countableSub, FSTree.isDir, hd]

theorem procEntries_some (rules : List IgnoreRule) (es : FSEntries) :
    ∀ (rel : List String) (depth count : Nat) (queue : List WalkItem)
      (c2 : Nat) (q2 : List WalkItem),
      procEntries rules es rel depth count queue = some (c2, q2) →
      c2 + countableQueue rules q2 =
        count + countableE rules es rel depth + countableQueue rules queue := by
  induction es using FSEntries.indOn with
  | h0 =>
    intro rel depth count queue c2 q2 h
    simp only [procEntries, Option.some.injEq, Prod.mk.injEq] at h
    obtain ⟨rfl, rfl⟩ := h.symm
    simp [countableE]
  | h1 name t rest ih =>
    intro rel depth count queue c2 q2 h
    simp only [procEntries] at h
    rw [countableE]
    split at h
    · rename_i hdot
      rw [if_pos hdot]
      have := ih rel depth count queue c2 q2 h
      omega
    · rename_i hdot
      rw [if_neg hdot]
      split at h
      · rename_i hign
        rw [if_pos hign]
        have := ih rel depth count queue c2 q2 h
        omega
      · rename_i hign
        rw [if_neg hign]
        split at h
        · exact absurd h (by simp)
        · rename_i hcap
          have := ih rel depth (count + 1) _ c2 q2 h
          rw [countableQueue_push] at this
          omega

theorem walkCountF_eq_min (rules : List IgnoreRule) :
    ∀ (fuel : Nat) (queue : List WalkItem) (count : Nat),
      queueSize queue < fuel →
      walkCountF rules fuel queue count =
        min (count + countableQueue rules queue) DIR_SUMMARY_MAX_ITEMS := by
  intro fuel
  induction fuel with
  | zero => intro queue count h; omega
  | succ fuel ih =>
    intro queue count h
    cases queue with
    | nil => simp [walkCountF, countableQueue]
    | cons item rest =>
      obtain ⟨es, rel, depth⟩ := item
      simp only [walkCountF]
      by_cases hcap : DIR_SUMMARY_MAX_ITEMS ≤ count
      · rw [if_pos hcap]
        omega
      · rw [if_neg hcap]
        by_cases hdepth : DIR_SUMMARY_MAX_DEPTH < depth
        · rw [if_pos hdepth]
          have hq : queueSize rest < fuel := by
            simp only [queueSize] at h
            omega
          rw [ih rest count hq]
          simp only [countableQueue, if_pos hdepth]
          omega
        · rw [if_neg hdepth]
          cases hpe : procEntries rules es rel depth count rest with
          | none =>
            have := procEntries_none rules es rel depth count rest hpe
            simp only [countableQueue, if_neg hdepth]
            omega
          | some res =>
            obtain ⟨c2, q2⟩ := res
            have hsz := procEntries_size rules es rel depth count rest c2 q2 hpe
            have hq2 : queueSize q2 < fuel := by
              simp only [queueSize] at h
              omega
            change walkCountF rules fuel q2 c2 = _
            rw [ih q2 c2 hq2]
            have hinv := procEntries_some rules es rel depth count rest c2 q2 hpe
            simp only [countableQueue, if_neg hdepth]
            omega

/-- Shared characterization: `count_dir` computes exactly the number of
walk-reachable entries, capped at `DIR_SUMMARY_MAX_ITEMS`. -/
theorem count_dir_eq_min (rules : List IgnoreRule) (name : String) (t : FSTree) :
    count_dir rules name t =
      min (countableE rules t.entriesOf [name] 0) DIR_SUMMARY_MAX_ITEMS := by
  unfold count_dir
  rw [walkCountF_eq_min rules _ _ _ (Nat.lt_succ_self _)]
  simp [countableQueue, DIR_SUMMARY_MAX_DEPTH]

def joinWith (sep : String) : List String → String
  | [] => ""
  | [p] => p
  | p :: rest => p ++ sep ++ joinWith sep rest

/-- Python `rel.split("/", 1)`. -/
def pySplit1Slash (s : String) : List String :=
  match pySplit '/' s with
  | [] => []
  | [x] => [x]
  | x :: rest => [x, joinWith "/" rest]

/-- `summary[top] = min(summary.get(top, 0) + 1, DIR_SUMMARY_MAX_ITEMS)`. -/
def bumpSummary : List (String × Nat) → String → List (String × Nat)
  | [], top => [(top, min (0 + 1) DIR_SUMMARY_MAX_ITEMS)]
  | (k, v) :: rest, top =>
    if k == top then (k, min (v + 1) DIR_SUMMARY_MAX_ITEMS) :: rest
    else (k, v) :: bumpSummary rest top

/-- The per-file step of `_directory_summary_from_files`: skip files at the
root and dot-prefixed top-level segments, else bump the capped count of the
file's top-level segment. -/
def dirSummaryStep (summary : List (String × Nat)) (rel : String) :
    List (String × Nat) :=
  let parts := pySplit1Slash rel
  if parts.length < 2 then summary
  else
    let top := parts.headD ""
    if pyStartsWith top "." then summary
    else bumpSummary summary top

/-- `_directory_summary_from_files` (the enumerated-file-list path of
`_get_directory_summary`). -/
def directory_summary_from_files (files : List String) : List (String × Nat) :=
  files.foldl dirSummaryStep []

/-- `summary.get(k, 0)`. -/
def valNat (l : List (String × Nat)) (k : String) : Nat :=
  ((l.find? (fun p => p.1 == k)).map (·.2)).getD 0

/-- How many listed files lie (strictly) under top-level segment `top`. -/
def topCount (files : List String) (top : String) : Nat :=
  files.countP (fun rel =>
    decide (2 ≤ (pySplit1Slash rel).length) && ((pySplit1Slash rel).headD "" == top))

theorem valNat_bump_self (s : List (String × Nat)) (top : String) :
    valNat (bumpSummary s top) top = min (valNat s top + 1) DIR_SUMMARY_MAX_ITEMS := by
  induction s with
  | nil => simp [bumpSummary, valNat, List.find?]
  | cons kv rest ih =>
    obtain ⟨k, v⟩ := kv
    by_cases h : k = top
    · subst h
      simp [bumpSummary, valNat, List.find?]
    · have hb : (k == top) = false := by simpa using h
      simp only [bumpSummary, hb, Bool.false_eq_true, if_false, valNat, List.find?,
        cond_false] at ih ⊢
      exact ih

theorem valNat_bump_other (s : List (String × Nat)) (k' top : String)
    (h : k' ≠ top) :
    valNat (bumpSummary s k') top = valNat s top := by
  induction s with
  | nil =>
    have hb : (k' == top) = false := by simpa using h
    simp [bumpSummary, valNat, List.find?, hb]
  | cons kv rest ih =>
    obtain ⟨k, v⟩ := kv
    by_cases hk : k = k'
    · subst hk
      have hb : (k == top) = false := by simpa using h
      simp [bumpSummary, valNat, List.find?, hb]
    · have hb : (k == k') = false := by simpa using hk
      simp only [bumpSummary, hb, Bool.false_eq_true, if_false, valNat,
        List.find?] at ih ⊢
      cases hkt : (k == top) <;> simp_all

theorem bump_le_cap (s : List (String × Nat)) (top : String)
    (h : ∀ p ∈ s, p.2 ≤ DIR_SUMMARY_MAX_ITEMS) :
    ∀ p ∈ bumpSummary s top, p.2 ≤ DIR_SUMMARY_MAX_ITEMS := by
  induction s with
  | nil =>
    intro p hp
    rw [bumpSummary, List.mem_singleton] at hp
    subst hp
    simp
  | cons kv rest ih =>
    obtain ⟨k, v⟩ := kv
    intro p hp
    by_cases hk : (k == top) = true
    · rw [bumpSummary, if_pos hk, List.mem_cons] at hp
      rcases hp with rfl | hp
      · simp
      · exact h p (List.mem_cons_of_mem _ hp)
    · rw [bumpSummary, if_neg hk, List.mem_cons] at hp
      rcases hp with rfl | hp
      · exact h _ (List.mem_cons_self _ _)
      · exact ih (fun q hq => h q (List.mem_cons_of_mem _ hq)) p hp

theorem foldl_dirSummary_val (top : String) (hdot : pyStartsWith top "." = false) :
    ∀ (files : List String) (summary : List (String × Nat)),
      valNat summary top ≤ DIR_SUMMARY_MAX_ITEMS →
      valNat (files.foldl dirSummaryStep summary) top =
        min (valNat summary top + topCount files top) DIR_SUMMARY_MAX_ITEMS := by
  intro files
  induction files with
  | nil =>
    intro summary hv
    simp only [List.foldl_nil, topCount, List.countP_nil]
    omega
  | cons f rest ih =>
    intro summary hv
    rw [List.foldl_cons]
    have hcount : topCount (f :: rest) top =
        (if (decide (2 ≤ (pySplit1Slash f).length) &&
            ((pySplit1Slash f).headD "" == top)) = true then 1 else 0) +
          topCount rest top := by
      simp only [topCount, List.countP_cons]
      split <;> omega
    by_cases hlen : (pySplit1Slash f).length < 2
    · have hstep : dirSummaryStep summary f = summary := by
        simp [dirSummaryStep, hlen]
      have hA : decide (2 ≤ (pySplit1Slash f).length) = false := by
        simp
        omega
      rw [hstep, ih summary hv, hcount, hA]
      simp
    · by_cases htop : (pySplit1Slash f).headD "" = top
      · have hB : ((pySplit1Slash f).headD "" == top) = true := by
          exact beq_iff_eq.2 htop
        have hA : decide (2 ≤ (pySplit1Slash f).length) = true := by
          simp
          omega
        have hstep : dirSummaryStep summary f = bumpSummary summary top := by
          simp only [dirSummaryStep]
          rw [if_neg hlen, htop, if_neg (by simp [hdot])]
        rw [hstep, ih (bumpSummary summary top) (by rw [valNat_bump_self]; omega),
          hcount, hA, hB, valNat_bump_self]
        simp only [Bool.and_self, if_true]
        omega
      · have hB : ((pySplit1Slash f).headD "" == top) = false := by
          simpa using htop
        have hstep : valNat (dirSummaryStep summary f) top = valNat summary top ∧
            valNat (dirSummaryStep summary f) top ≤ DIR_SUMMARY_MAX_ITEMS := by
          simp only [dirSummaryStep]
          rw [if_neg hlen]
          split
          · exact ⟨rfl, hv⟩
          · rw [valNat_bump_other _ _ _ htop]
            exact ⟨rfl, hv⟩
        rw [ih _ hstep.2, hstep.1, hcount, hB]
        simp

theorem dirSummary_values_cap : ∀ (files : List String) (summary : List (String × Nat)),
    (∀ p ∈ summary, p.2 ≤ DIR_SUMMARY_MAX_ITEMS) →
    ∀ p ∈ files.foldl dirSummaryStep summary, p.2 ≤ DIR_SUMMARY_MAX_ITEMS := by
  intro files
  induction files with
  | nil => intro summary h; simpa using h
  | cons f rest ih =>
    intro summary h
    rw [List.foldl_cons]
    apply ih
    intro p hp
    simp only [dirSummaryStep] at hp
    split at hp
    · exact h p hp
    · split at hp
      · exact h p hp
      · exact bump_le_cap summary _ h p hp

theorem fallback_summary_cap (rules : List IgnoreRule) (root : FSEntries) :
    ∀ p ∈ get_directory_summary_fallback rules root, p.2 ≤ DIR_SUMMARY_MAX_ITEMS := by
  intro p hp
  unfold get_directory_summary_fallback at hp
  obtain ⟨a, _, hfa⟩ := List.mem_filterMap.1 hp
  split at hfa
  · exact absurd hfa (by simp)
  · split at hfa
    · split at hfa
      · exact absurd hfa (by simp)
      · obtain rfl := Option.some.inj hfa
        rw [count_dir_eq_min]
        exact min_le_right _ _
    · exact absurd hfa (by simp)

/-- C3 (amended): a `directory_summary` count never exceeds 1000 on either
path.  On the enumerated-file-list path, a (non-dot) top-level directory with
at least 1000 listed files gets exactly 1000 — never less, never more.  On
the fallback walk, the count equals `min(walk-reachable entries, 1000)`,
where walk-reachable means non-dot, non-ignored entries at most
`DIR_SUMMARY_MAX_DEPTH + 1` directory levels below the top-level directory:
files below the walk's depth bound are not counted, so a directory with more
than 1000 such files can report fewer than 1000. -/
theorem directory_summary_cap_amended :
    (∀ (files : List String) (top : String),
        pyStartsWith top "." = false →
        DIR_SUMMARY_MAX_ITEMS ≤ topCount files top →
        valNat (directory_summary_from_files files) top = DIR_SUMMARY_MAX_ITEMS) ∧
    (∀ (files : List String) (p : String × Nat),
        p ∈ directory_summary_from_files files → p.2 ≤ DIR_SUMMARY_MAX_ITEMS) ∧
    (∀ (rules : List IgnoreRule) (root : FSEntries) (p : String × Nat),
        p ∈ get_directory_summary_fallback rules root → p.2 ≤ DIR_SUMMARY_MAX_ITEMS) ∧
    (∀ (rules : List IgnoreRule) (name : String) (t : FSTree),
        count_dir rules name t =
          min (countableE rules t.entriesOf [name] 0) DIR_SUMMARY_MAX_ITEMS) := by
  refine ⟨?_, ?_, fallback_summary_cap, count_dir_eq_min⟩
  · intro files top hdot hge
    unfold directory_summary_from_files
    rw [foldl_dirSummary_val top hdot files [] (by simp [valNat])]
    simp only [valNat, List.find?, Option.map_none', Option.getD_none, Nat.zero_add]
    omega
  · intro files p hp
    exact dirSummary_values_cap files [] (by simp) p hp

/-- Witness for C3 (amended) at concrete inputs: 1000 files under `d` give
exactly 1000; small concrete summaries stay within the cap; the fallback
count is the capped number of reachable entries. -/
theorem directory_summary_cap_amended_witness :
    valNat (directory_summary_from_files (List.replicate 1000 "d/f")) "d" =
      DIR_SUMMARY_MAX_ITEMS ∧
    (("d", 1) : String × Nat).2 ≤ DIR_SUMMARY_MAX_ITEMS ∧
    (("kept", 1) : String × Nat).2 ≤ DIR_SUMMARY_MAX_ITEMS ∧
    count_dir [] "top" (.dir (.cons "a" .file .nil)) =
      min (countableE [] (FSTree.dir (.cons "a" .file .nil)).entriesOf ["top"] 0)
        DIR_SUMMARY_MAX_ITEMS :=
  ⟨directory_summary_cap_amended.1 (List.replicate 1000 "d/f") "d" (by decide) (by decide),
   directory_summary_cap_amended.2.1 ["d/f"] ("d", 1) (by decide),
   directory_summary_cap_amended.2.2.1 [] (.cons "kept" (.dir (.cons "a.txt" .file .nil)) .nil)
     ("kept", 1) (by decide),
   directory_summary_cap_amended.2.2.2 [] "top" (.dir (.cons "a" .file .nil))⟩

def manyFiles : Nat → FSEntries
  | 0 => .nil
  | n + 1 => .cons ("f" ++ toString n) .file (manyFiles n)

/-- A top-level directory whose 1001 files all sit six levels deep. -/
def deepDir : FSTree :=
  .dir (.cons "d1" (.dir (.cons "d2" (.dir (.cons "d3" (.dir (.cons "d4" (.dir
    (.cons "d5" (.dir (manyFiles 1001)) .nil)) .nil)) .nil)) .nil)) .nil)

/-- C3 fails as stated: with no ignore rules and no dotfiles (so no file is
excluded), a top-level directory holding 1001 files below the walk's depth
bound gets a `directory_summary` entry of 5 (the five intermediate
directories), not 1000. -/
theorem directory_summary_depth_cap_counterexample :
    1000 < totalFilesT deepDir ∧
    get_directory_summary_fallback [] (.cons "top" deepDir .nil) = [("top", 5)] ∧
    (5 : Nat) ≠ 1000 := by
  refine ⟨by decide, by decide, by decide⟩

/-- The root ignore file of the C5 scenario. -/
def c5rules : List IgnoreRule := gitignoreFromLines ["ignored_dir/", "ignored.txt"]

/-- The scanned tree of the C5 scenario. -/
def c5root : FSEntries :=
  .cons "ignored_dir" (.dir (.cons "b.txt" .file .nil))
    (.cons "ignored.txt" .file
      (.cons "kept_dir" (.dir (.cons "a.txt" .file .nil))
        (.cons "keep.txt" .file .nil)))

/-- C5: with ignore rules `ignored_dir/` and `ignored.txt`, a snapshot of a
tree containing `ignored_dir/b.txt`, `ignored.txt`, `kept_dir/a.txt` and
`keep.txt` lists exactly `keep.txt` and `kept_dir` in `top_level`, and its
`directory_summary` has a key for `kept_dir` but none for `ignored_dir`. -/
theorem snapshot_ignore_scenario :
    get_top_level_entries_fallback c5rules c5root =
      [("keep.txt", "file"), ("kept_dir", "dir")] ∧
    get_directory_summary_fallback c5rules c5root = [("kept_dir", 1)] := by
  refine ⟨by decide, by decide⟩

/-! ## Snapshot assembly (`create_snapshot` and its helpers)

External tools (git, fd, tree) are modelled by their raw outputs, carried in
a `SnapshotEnv`; everything the Python code computes from those outputs is
embedded.  The fixed regex set `HINT_PATTERNS` of `_extract_run_hints` is
abstracted as a line predicate `hintMatch` — the claims about run hints
concern only the caps, which hold for every predicate. -/

/-- Commit parsing in `_get_git_info`: split the `git log --oneline` output
into lines, skip blank ones, split each at the first space into sha and
message. -/
def parseCommits (logOutput : String) : List (String × String) :=
  (pySplit '\n' logOutput).filterMap (fun line =>
    if pyStrip line == "" then none
    else
      match pySplit ' ' line with
      | [sha] => some (sha, "")
      | sha :: rest => some (sha, joinWith " " rest)
      | [] => none)

/-- `_get_git_info` as a function of the three raw git outputs
(`none` = command failed). -/
def get_git_info (branchOut : Option String) (statusOut logOut : String) :
    Bool × Option String × List String × List (String × String) :=
  match branchOut with
  | none => (false, none, [], [])
  | some branch =>
    (true, some branch,
      (pySplit '\n' statusOut).filter (fun l => pyStrip l != ""),
      parseCommits logOut)

/-- The line loop of `_extract_run_hints` over one candidate file: strip,
skip blanks, keep matching lines truncated to `MAX_HINT_LINE_LENGTH`,
deduplicate, stop at `MAX_HINT_LINES`. -/
def addHintsFromLines (hintMatch : String → Bool) :
    List String → List String → List String
  | [], hints => hints
  | line :: rest, hints =>
    if MAX_HINT_LINES ≤ hints.length then hints
    else
      let l := pyStrip line
      if l == "" then addHintsFromLines hintMatch rest hints
      else if hintMatch l then
        let t := pyTake l MAX_HINT_LINE_LENGTH
        if hints.contains t then addHintsFromLines hintMatch rest hints
        else addHintsFromLines hintMatch rest (hints ++ [t])
      else addHintsFromLines hintMatch rest hints

/-- `_extract_run_hints`, given the (already read, ≤64KB) line lists of the
surviving candidate documentation files. -/
def extract_run_hints (hintMatch : String → Bool)
    (fileLines : List (List String)) : List String :=
  fileLines.foldl (fun hints contentLines =>
    if MAX_HINT_LINES ≤ hints.length then hints
    else addHintsFromLines hintMatch contentLines hints) []

/-- The output-bounding loop of `_build_tree_from_file_list`: keep rstripped
lines while under `TREE_MAX_LINES` lines and `TREE_MAX_CHARS` total
characters (counting one newline per line). -/
def boundTreeLines : List String → List String → Nat → List String
  | [], acc, _ => acc
  | line :: rest, acc, total =>
    if TREE_MAX_LINES ≤ acc.length then acc
    else if TREE_MAX_CHARS < total + line.length + 1 then acc
    else boundTreeLines rest (acc ++ [pyRstrip line]) (total + line.length + 1)

/-- `_build_tree_from_file_list` applied to the tree binary's stdout:
`"\n".join(lines).strip() if lines else None`. -/
def build_tree_from_file_list (treeOut : String) : Option String :=
  let lines := boundTreeLines (pySplit '\n' treeOut) [] 0
  if lines.isEmpty then none else some (pyStrip (joinWith "\n" lines))

/-- The fd branch of `_get_top_level_entries`: take the (non-dot) names in fd
output order, typed by a directory probe, stopping at
`MAX_TOP_LEVEL_ENTRIES`. -/
def topLevelFromFd (isDirAt : String → Bool) (items : List String) :
    List (String × String) :=
  (((items.map (fun i => (pathName i, i))).filter
      (fun p => !pyStartsWith p.1 ".")).take MAX_TOP_LEVEL_ENTRIES).map
    (fun p => (p.1, if isDirAt p.2 then "dir" else "file"))

/-- The environment of one `create_snapshot` run: raw outputs of the external
commands (git, fd, tree), the filesystem for the fallback paths, the root
ignore file, and the surviving hint files' contents. -/
structure SnapshotEnv where
  gitBranch : Option String
  gitStatusRaw : String
  gitLogRaw : String
  fdTop : Option (List String)
  fdSummaryFiles : Option (List String)
  fdTreeFiles : Option (List String)
  treeOut : Option String
  isDirAt : String → Bool
  ignoreLines : List String
  root : FSEntries
  hintFileLines : List (List String)

structure RepoSnapshot where
  root : String
  git_available : Bool
  branch : Option String
  status : List String
  recent_commits : List (String × String)
  top_level : List (String × String)
  directory_summary : List (String × Nat)
  file_tree : Option String
  run_hints : List String

/-- `create_snapshot`: git info, top level, directory summary, optional tree
view, run hints — each picking the fd path when fd output is available and
the pure fallback otherwise. -/
def create_snapshot (hintMatch : String → Bool) (rootPath : String)
    (env : SnapshotEnv) : RepoSnapshot :=
  let rules := gitignoreFromLines env.ignoreLines
  let git := get_git_info env.gitBranch env.gitStatusRaw env.gitLogRaw
  { root := rootPath
    git_available := git.1
    branch := git.2.1
    status := git.2.2.1
    recent_commits := git.2.2.2
    top_level :=
      match env.fdTop with
      | some items => topLevelFromFd env.isDirAt items
      | none => get_top_level_entries_fallback rules env.root
    directory_summary :=
      match env.fdSummaryFiles with
      | some files => directory_summary_from_files files
      | none => get_directory_summary_fallback rules env.root
    file_tree :=
      match env.fdTreeFiles with
      | some _ =>
        match env.treeOut with
        | some out => build_tree_from_file_list out
        | none => none
      | none => none
    run_hints := extract_run_hints hintMatch env.hintFileLines }

def nlCount (s : String) : Nat := s.toList.count '\n'

def sumLen (l : List String) : Nat := (l.map String.length).sum

theorem length_pyTake (s : String) (n : Nat) : (pyTake s n).length ≤ n := by
  show (s.toList.take n).length ≤ n
  exact List.length_take_le _ _

theorem length_pyRstrip (s : String) : (pyRstrip s).length ≤ s.length := by
  show ((s.toList.reverse.dropWhile isPySpace).reverse).length ≤ s.toList.length
  rw [List.length_reverse]
  calc (s.toList.reverse.dropWhile isPySpace).length
      ≤ s.toList.reverse.length := (List.dropWhile_sublist _).length_le
    _ = s.toList.length := List.length_reverse _

theorem length_pyStrip (s : String) : (pyStrip s).length ≤ s.length := by
  show ((((s.toList.dropWhile isPySpace).reverse.dropWhile isPySpace)).reverse).length
      ≤ s.toList.length
  rw [List.length_reverse]
  calc ((s.toList.dropWhile isPySpace).reverse.dropWhile isPySpace).length
      ≤ (s.toList.dropWhile isPySpace).reverse.length := (List.dropWhile_sublist _).length_le
    _ = (s.toList.dropWhile isPySpace).length := List.length_reverse _
    _ ≤ s.toList.length := (List.dropWhile_sublist _).length_le

theorem nlCount_pyRstrip_le (s : String) : nlCount (pyRstrip s) ≤ nlCount s := by
  show ((s.toList.reverse.dropWhile isPySpace).reverse).count '\n' ≤ s.toList.count '\n'
  rw [List.count_reverse]
  calc (s.toList.reverse.dropWhile isPySpace).count '\n'
      ≤ s.toList.reverse.count '\n' := (List.dropWhile_sublist _).count_le _
    _ = s.toList.count '\n' := List.count_reverse _ _

theorem nlCount_pyStrip_le (s : String) : nlCount (pyStrip s) ≤ nlCount s := by
  show ((((s.toList.dropWhile isPySpace).reverse.dropWhile isPySpace)).reverse).count '\n'
      ≤ s.toList.count '\n'
  rw [List.count_reverse]
  calc ((s.toList.dropWhile isPySpace).reverse.dropWhile isPySpace).count '\n'
      ≤ (s.toList.dropWhile isPySpace).reverse.count '\n' :=
        (List.dropWhile_sublist _).count_le _
    _ = (s.toList.dropWhile isPySpace).count '\n' := List.count_reverse _ _
    _ ≤ s.toList.count '\n' := (List.dropWhile_sublist _).count_le _

theorem splitCharList_ne_nil (c : Char) : ∀ (l : List Char), splitCharList c l ≠ [] := by
  intro l
  cases l with
  | nil => simp [splitCharList]
  | cons x xs =>
    simp only [splitCharList]
    split
    · simp
    · split <;> simp

theorem splitCharList_no_sep (c : Char) :
    ∀ (l : List Char), ∀ chunk ∈ splitCharList c l, chunk.count c = 0 := by
  intro l
  induction l with
  | nil =>
    intro chunk hc
    simp only [splitCharList, List.mem_singleton] at hc
    simp [hc]
  | cons x xs ih =>
    intro chunk hc
    simp only [splitCharList] at hc
    by_cases hx : (x == c) = true
    · rw [if_pos hx, List.mem_cons] at hc
      rcases hc with rfl | hc
      · simp
      · exact ih chunk hc
    · rw [if_neg hx] at hc
      have hxc : x ≠ c := by simpa using hx
      cases hr : splitCharList c xs with
      | nil => exact absurd hr (splitCharList_ne_nil c xs)
      | cons h t =>
        rw [hr, List.mem_cons] at hc
        rcases hc with rfl | hc
        · have hh : h.count c = 0 := ih h (by rw [hr]; exact List.mem_cons_self _ _)
          simp [List.count_cons, hh, hxc]
        · exact ih chunk (by rw [hr]; exact List.mem_cons_of_mem _ hc)

theorem nlCount_pySplit (s : String) : ∀ chunk ∈ pySplit '\n' s, nlCount chunk = 0 := by
  intro chunk hc
  obtain ⟨cl, hcl, rfl⟩ := List.mem_map.1 hc
  show cl.count '\n' = 0
  exact splitCharList_no_sep '\n' s.toList cl hcl

theorem length_joinWith_le (sep : String) :
    ∀ (l : List String), (joinWith sep l).length ≤ sumLen l + sep.length * l.length := by
  intro l
  induction l with
  | nil => simp [joinWith, sumLen]
  | cons p rest ih =>
    cases rest with
    | nil => simp [joinWith, sumLen]
    | cons q rest2 =>
      show (p ++ sep ++ joinWith sep (q :: rest2)).length ≤ _
      rw [String.length_append, String.length_append]
      have : sumLen (p :: q :: rest2) = p.length + sumLen (q :: rest2) := by
        simp [sumLen]
      rw [this]
      have hlen : (q :: rest2).length + 1 = (p :: q :: rest2).length := by simp
      calc p.length + sep.length + (joinWith sep (q :: rest2)).length
          ≤ p.length + sep.length + (sumLen (q :: rest2) + sep.length * (q :: rest2).length) :=
            by omega
        _ = p.length + sumLen (q :: rest2) + sep.length * ((q :: rest2).length + 1) := by ring
        _ = p.length + sumLen (q :: rest2) + sep.length * (p :: q :: rest2).length := by
            rw [hlen]

theorem nlCount_joinWith (l : List String) (h : ∀ s ∈ l, nlCount s = 0) :
    nlCount (joinWith "\n" l) + 1 ≤ max l.length 1 := by
  induction l with
  | nil => simp [joinWith, nlCount]
  | cons p rest ih =>
    cases rest with
    | nil =>
      have hp : nlCount p = 0 := h p (List.mem_cons_self _ _)
      simp only [joinWith]
      omega
    | cons q rest2 =>
      have hp : nlCount p = 0 := h p (List.mem_cons_self _ _)
      have hrest := ih (fun s hs => h s (List.mem_cons_of_mem _ hs))
      have happ : nlCount (p ++ "\n" ++ joinWith "\n" (q :: rest2)) =
          nlCount p + 1 + nlCount (joinWith "\n" (q :: rest2)) := by
        show ((p ++ "\n" ++ joinWith "\n" (q :: rest2)).data).count '\n' = _
        rw [String.data_append, String.data_append, List.count_append,
          List.count_append]
        simp [nlCount, String.toList]
      show nlCount (p ++ "\n" ++ joinWith "\n" (q :: rest2)) + 1 ≤ _
      rw [happ, hp]
      simp only [List.length_cons] at hrest ⊢
      omega

theorem addHints_length_le (f : String → Bool) :
    ∀ (lines hints : List String), hints.length ≤ MAX_HINT_LINES →
      (addHintsFromLines f lines hints).length ≤ MAX_HINT_LINES := by
  intro lines
  induction lines with
  | nil => intro hints h; exact h
  | cons line rest ih =>
    intro hints h
    rw [addHintsFromLines]
    split
    · exact h
    · rename_i hlt
      dsimp only []
      split
      · exact ih hints h
      · split
        · split
          · exact ih hints h
          · apply ih
            rw [List.length_append]
            simp only [List.length_singleton]
            omega
        · exact ih hints h

theorem addHints_mem_le (f : String → Bool) :
    ∀ (lines hints : List String),
      (∀ h ∈ hints, h.length ≤ MAX_HINT_LINE_LENGTH) →
      ∀ h ∈ addHintsFromLines f lines hints, h.length ≤ MAX_HINT_LINE_LENGTH := by
  intro lines
  induction lines with
  | nil => intro hints h; exact h
  | cons line rest ih =>
    intro hints h
    rw [addHintsFromLines]
    split
    · exact h
    · dsimp only []
      split
      · exact ih hints h
      · split
        · split
          · exact ih hints h
          · apply ih
            intro x hx
            rw [List.mem_append, List.mem_singleton] at hx
            rcases hx with hx | rfl
            · exact h x hx
            · exact length_pyTake _ _
        · exact ih hints h

theorem extract_run_hints_bounds (f : String → Bool) (fileLines : List (List String)) :
    (extract_run_hints f fileLines).length ≤ MAX_HINT_LINES ∧
    ∀ h ∈ extract_run_hints f fileLines, h.length ≤ MAX_HINT_LINE_LENGTH := by
  unfold extract_run_hints
  suffices h : ∀ (hints : List String), hints.length ≤ MAX_HINT_LINES →
      (∀ x ∈ hints, x.length ≤ MAX_HINT_LINE_LENGTH) →
      (fileLines.foldl (fun hints contentLines =>
          if MAX_HINT_LINES ≤ hints.length then hints
          else addHintsFromLines f contentLines hints) hints).length ≤ MAX_HINT_LINES ∧
      ∀ x ∈ fileLines.foldl (fun hints contentLines =>
          if MAX_HINT_LINES ≤ hints.length then hints
          else addHintsFromLines f contentLines hints) hints,
        x.length ≤ MAX_HINT_LINE_LENGTH by
    exact h [] (by simp [MAX_HINT_LINES]) (by simp)
  induction fileLines with
  | nil => intro hints h1 h2; exact ⟨h1, h2⟩
  | cons content rest ih =>
    intro hints h1 h2
    rw [List.foldl_cons]
    split
    · exact ih hints h1 h2
    · exact ih _ (addHints_length_le f content hints h1) (addHints_mem_le f content hints h2)

theorem boundTreeLines_inv :
    ∀ (lines acc : List String) (total : Nat),
      acc.length ≤ TREE_MAX_LINES →
      sumLen acc + acc.length ≤ total →
      total ≤ TREE_MAX_CHARS →
      (∀ s ∈ acc, nlCount s = 0) →
      (∀ s ∈ lines, nlCount s = 0) →
      (boundTreeLines lines acc total).length ≤ TREE_MAX_LINES ∧
      sumLen (boundTreeLines lines acc total) +
          (boundTreeLines lines acc total).length ≤ TREE_MAX_CHARS ∧
      (∀ s ∈ boundTreeLines lines acc total, nlCount s = 0) := by
  intro lines
  induction lines with
  | nil =>
    intro acc total h1 h2 h3 h4 _
    exact ⟨h1, by rw [boundTreeLines]; omega, h4⟩
  | cons line rest ih =>
    intro acc total h1 h2 h3 h4 h5
    rw [boundTreeLines]
    split
    · exact ⟨h1, by omega, h4⟩
    · split
      · exact ⟨h1, by omega, h4⟩
      · rename_i hlines hchars
        apply ih
        · rw [List.length_append]
          simp only [List.length_singleton]
          simp only [TREE_MAX_LINES] at hlines ⊢
          omega
        · have hsum : sumLen (acc ++ [pyRstrip line]) =
              sumLen acc + (pyRstrip line).length := by
            simp [sumLen]
          rw [hsum, List.length_append]
          have := length_pyRstrip line
          simp only [List.length_singleton]
          omega
        · simp only [TREE_MAX_CHARS] at hchars ⊢
          omega
        · intro s hs
          rw [List.mem_append, List.mem_singleton] at hs
          rcases hs with hs | rfl
          · exact h4 s hs
          · have := nlCount_pyRstrip_le line
            have := h5 line (List.mem_cons_self _ _)
            omega
        · exact fun s hs => h5 s (List.mem_cons_of_mem _ hs)

theorem build_tree_bounds (out t : String)
    (h : build_tree_from_file_list out = some t) :
    t.length ≤ TREE_MAX_CHARS ∧ nlCount t + 1 ≤ TREE_MAX_LINES := by
  unfold build_tree_from_file_list at h
  set lines := boundTreeLines (pySplit '\n' out) [] 0 with hlines
  dsimp only [] at h
  split at h
  · exact absurd h (by simp)
  · rename_i hne
    obtain rfl := Option.some.inj h
    have hinv := boundTreeLines_inv (pySplit '\n' out) [] 0 (by simp [TREE_MAX_LINES])
      (by simp [sumLen]) (by simp [TREE_MAX_CHARS]) (by simp) (nlCount_pySplit out)
    rw [← hlines] at hinv
    constructor
    · calc (pyStrip (joinWith "\n" lines)).length
          ≤ (joinWith "\n" lines).length := length_pyStrip _
        _ ≤ sumLen lines + ("\n" : String).length * lines.length :=
            length_joinWith_le "\n" lines
        _ = sumLen lines + lines.length := by
            have h1 : ("\n" : String).length = 1 := rfl
            rw [h1, one_mul]
        _ ≤ TREE_MAX_CHARS := by
            have := hinv.2.1
            omega
    · have hj := nlCount_joinWith lines hinv.2.2
      have hs := nlCount_pyStrip_le (joinWith "\n" lines)
      have h120 : lines.length ≤ TREE_MAX_LINES := hinv.1
      simp only [TREE_MAX_LINES] at h120 ⊢
      omega

theorem parseCommits_length_le (logOutput : String) :
    (parseCommits logOutput).length ≤ (pySplit '\n' logOutput).length :=
  List.length_filterMap_le _ _

/-- C7: the documented hard caps hold for every produced snapshot, whatever
the filesystem and external-tool outputs: at most `MAX_TOP_LEVEL_ENTRIES`
top-level entries, at most `MAX_RECENT_COMMITS` recent commits (`git log` is
invoked with `-10`, so its output has at most 10 lines — the hypothesis), at
most `MAX_HINT_LINES` run hints of at most `MAX_HINT_LINE_LENGTH` characters
each, directory-summary counts of at most `DIR_SUMMARY_MAX_ITEMS`, and a
file tree of at most `TREE_MAX_CHARS` characters and `TREE_MAX_LINES` lines;
oversized input is truncated rather than erroring or growing unbounded. -/
theorem snapshot_bounds :
    ∀ (hintMatch : String → Bool) (rootPath : String) (env : SnapshotEnv),
      (pySplit '\n' env.gitLogRaw).length ≤ MAX_RECENT_COMMITS →
      (create_snapshot hintMatch rootPath env).top_level.length ≤ MAX_TOP_LEVEL_ENTRIES ∧
      (create_snapshot hintMatch rootPath env).recent_commits.length ≤ MAX_RECENT_COMMITS ∧
      (create_snapshot hintMatch rootPath env).run_hints.length ≤ MAX_HINT_LINES ∧
      (∀ h ∈ (create_snapshot hintMatch rootPath env).run_hints,
        h.length ≤ MAX_HINT_LINE_LENGTH) ∧
      (∀ p ∈ (create_snapshot hintMatch rootPath env).directory_summary,
        p.2 ≤ DIR_SUMMARY_MAX_ITEMS) ∧
      (∀ t, (create_snapshot hintMatch rootPath env).file_tree = some t →
        t.length ≤ TREE_MAX_CHARS ∧ nlCount t + 1 ≤ TREE_MAX_LINES) := by
  intro hintMatch rootPath env hgit
  refine ⟨?_, ?_, ?_, ?_, ?_, ?_⟩
  · show (match env.fdTop with
      | some items => topLevelFromFd env.isDirAt items
      | none => get_top_level_entries_fallback (gitignoreFromLines env.ignoreLines)
          env.root).length ≤ MAX_TOP_LEVEL_ENTRIES
    cases env.fdTop with
    | some items =>
      simp only [topLevelFromFd, List.length_map]
      exact List.length_take_le _ _
    | none =>
      simp only [get_top_level_entries_fallback, List.length_map]
      exact List.length_take_le _ _
  · show (get_git_info env.gitBranch env.gitStatusRaw env.gitLogRaw).2.2.2.length ≤
      MAX_RECENT_COMMITS
    cases env.gitBranch with
    | none => simp [get_git_info]
    | some branch =>
      simp only [get_git_info]
      exact le_trans (parseCommits_length_le env.gitLogRaw) hgit
  · exact (extract_run_hints_bounds hintMatch env.hintFileLines).1
  · exact (extract_run_hints_bounds hintMatch env.hintFileLines).2
  · show ∀ p ∈ (match env.fdSummaryFiles with
      | some files => directory_summary_from_files files
      | none => get_directory_summary_fallback (gitignoreFromLines env.ignoreLines)
          env.root), p.2 ≤ DIR_SUMMARY_MAX_ITEMS
    cases env.fdSummaryFiles with
    | some files =>
      intro p hp
      exact dirSummary_values_cap files [] (by simp) p hp
    | none => exact fallback_summary_cap _ _
  · show ∀ t, (match env.fdTreeFiles with
      | some _ =>
        match env.treeOut with
        | some out => build_tree_from_file_list out
        | none => none
      | none => none) = some t →
      t.length ≤ TREE_MAX_CHARS ∧ nlCount t + 1 ≤ TREE_MAX_LINES
    intro t ht
    cases henv : env.fdTreeFiles with
    | none =>
      rw [henv] at ht
      simp at ht
    | some files =>
      rw [henv] at ht
      cases htree : env.treeOut with
      | none =>
        rw [htree] at ht
        simp at ht
      | some out =>
        rw [htree] at ht
        exact build_tree_bounds out t ht

/-- Witness for C7 on a concrete (empty) environment. -/
theorem snapshot_bounds_witness :
    (create_snapshot (fun _ => false) "/repo"
        ⟨none, "", "", none, none, none, none, fun _ => false, [], .nil, []⟩).top_level.length ≤
      MAX_TOP_LEVEL_ENTRIES ∧
    (create_snapshot (fun _ => false) "/repo"
        ⟨none, "", "", none, none, none, none, fun _ => false, [], .nil, []⟩).recent_commits.length ≤
      MAX_RECENT_COMMITS ∧
    (create_snapshot (fun _ => false) "/repo"
        ⟨none, "", "", none, none, none, none, fun _ => false, [], .nil, []⟩).run_hints.length ≤
      MAX_HINT_LINES ∧
    (∀ h ∈ (create_snapshot (fun _ => false) "/repo"
        ⟨none, "", "", none, none, none, none, fun _ => false, [], .nil, []⟩).run_hints,
      h.length ≤ MAX_HINT_LINE_LENGTH) ∧
    (∀ p ∈ (create_snapshot (fun _ => false) "/repo"
        ⟨none, "", "", none, none, none, none, fun _ => false, [], .nil, []⟩).directory_summary,
      p.2 ≤ DIR_SUMMARY_MAX_ITEMS) ∧
    (∀ t, (create_snapshot (fun _ => false) "/repo"
        ⟨none, "", "", none, none, none, none, fun _ => false, [], .nil, []⟩).file_tree = some t →
      t.length ≤ TREE_MAX_CHARS ∧ nlCount t + 1 ≤ TREE_MAX_LINES) :=
  snapshot_bounds (fun _ => false) "/repo"
    ⟨none, "", "", none, none, none, none, fun _ => false, [], .nil, []⟩ (by decide)
